import Mathlib

/-!
# Verification of the SimpleHarmonics sequence engine and rendering pipeline

Shallow embedding of the C++ core of the Harmonic Visualizer
(`mulmod`, `modexp`, `generateSequence`, `buildPartials`, and the three
renderers `drawOscilloscope`, `drawLissajous`, `drawPlasma`), together
with theorems settling the specification claims.

Unsigned 64-bit values are modelled as `Nat`.  This is faithful because
every arithmetic operation the code performs on them is overflow-free:
`mulmod` forms the product in a 128-bit intermediate before reducing, and
`modexp` keeps all operands below the modulus.  Loops (`while` in the
source) are modelled with an explicit fuel argument that provably bounds
the number of iterations actually performed (see `genLoop_fuel_irrelevant`
for the proof that the fuel never runs out on the real entry point).
-/

/-- `mulmod(a, b, m)` from the source: `(a*b) mod m` computed without
overflow via a `__uint128_t` intermediate, hence exactly `a * b % m`. -/
def mulmod (a b m : Nat) : Nat := a * b % m

/-- The `while (exp > 0)` loop body of `modexp`: square-and-multiply.
`fuel` bounds the iteration count; since `exp` at least halves each
round, `fuel = exp` is always sufficient (for `exp = 0` the loop body
never runs, matching the `fuel = 0` branch). -/
def modexpLoop (m : Nat) : Nat → Nat → Nat → Nat → Nat
  | 0, _, _, result => result
  | fuel + 1, e, cur, result =>
    if e = 0 then result
    else
      modexpLoop m fuel (e / 2) (mulmod cur cur m)
        (if e % 2 = 1 then mulmod result cur m else result)

/-- `modexp(base, exp, mod)` from the source (README.md, square-and-multiply):
returns the sentinel `0` when `mod = 0`, returns `0` when `mod = 1`,
otherwise runs the square-and-multiply loop starting from
`result = 1 % mod` and `cur = base % mod`. -/
def modexp (base exp mod : Nat) : Nat :=
  if mod = 0 then 0
  else if mod = 1 then 0
  else modexpLoop mod exp exp (base % mod) (1 % mod)

/-- Auxiliary mod-arithmetic identity used to unfold one square-and-multiply
step: an inner reduction of the squared factor can be dropped under the
outer `% n`. -/
theorem mul_modpow_mod (n a b k : Nat) : a * (b % n) ^ k % n = a * b ^ k % n := by
  rw [Nat.mul_mod, ← Nat.pow_mod, ← Nat.mul_mod]

theorem modexpLoop_eq (m : Nat) (hm : 0 < m) :
    ∀ fuel e cur result, e ≤ fuel → result < m →
      modexpLoop m fuel e cur result = result * cur ^ e % m := by
  intro fuel
  induction fuel with
  | zero =>
    intro e cur result he hr
    interval_cases e
    simp [modexpLoop, Nat.mod_eq_of_lt hr]
  | succ n ih =>
    intro e cur result he hr
    by_cases he0 : e = 0
    · subst he0
      simp [modexpLoop, Nat.mod_eq_of_lt hr]
    · have hepos : 0 < e := Nat.pos_of_ne_zero he0
      have hdiv : e / 2 ≤ n := by
        have := Nat.div_lt_self hepos (by norm_num : 1 < 2)
        omega
      have hmulmod_lt : ∀ a b : Nat, mulmod a b m < m := fun a b =>
        Nat.mod_lt _ hm
      rw [modexpLoop, if_neg he0]
      by_cases hodd : e % 2 = 1
      · rw [if_pos hodd, ih _ _ _ hdiv (hmulmod_lt _ _)]
        have hee : e = 2 * (e / 2) + 1 := by omega
        unfold mulmod
        conv_rhs => rw [hee]
        rw [mul_modpow_mod, Nat.mod_mul_mod]
        congr 1
        ring
      · rw [if_neg hodd, ih _ _ _ hdiv hr]
        have hee : e = 2 * (e / 2) := by omega
        unfold mulmod
        conv_rhs => rw [hee]
        rw [mul_modpow_mod]
        congr 1
        ring

/-- Functional correctness of `modexp` for a positive modulus. -/
theorem modexp_eq (base exp mod : Nat) (h : 1 ≤ mod) :
    modexp base exp mod = base ^ exp % mod := by
  by_cases h1 : mod = 1
  · subst h1
    simp [modexp, Nat.mod_one]
  · have h2 : 2 ≤ mod := by omega
    rw [modexp, if_neg (by omega), if_neg h1,
      modexpLoop_eq mod (by omega) exp exp (base % mod) (1 % mod) le_rfl
        (Nat.mod_lt _ (by omega)),
      Nat.mod_eq_of_lt (by omega : 1 < mod), one_mul, ← Nat.pow_mod]

/-- `modexp` with modulus `0` returns the documented sentinel `0`. -/
theorem modexp_zero_mod (base exp : Nat) : modexp base exp 0 = 0 := rfl

/-- The result of `modexp` is a genuine residue: below the modulus. -/
theorem modexp_lt (base exp mod : Nat) (h : 1 ≤ mod) :
    modexp base exp mod < mod := by
  rw [modexp_eq base exp mod h]
  exact Nat.mod_lt _ (by omega)

/-- The `while (true)` loop of `generateSequence`: compute
`v = modexp(base, i++, mod)`, break when `v` was already seen, otherwise
record it (`seen.insert(v); g_seq.push_back(v)`) and break once the
safety cap is exceeded (`if (g_seq.size() > 5000) break`).  `fuel` bounds
the iteration count; since every continuing iteration grows the sequence
by one and the loop stops as soon as the length exceeds 5000, fuel 5001
is exact for the empty-sequence entry point (`genLoop_fuel_irrelevant`). -/
def genLoop (base md : Nat) : Nat → List Nat → List Nat → Nat → List Nat
  | 0, _, seq, _ => seq
  | fuel + 1, seen, seq, i =>
    if modexp base i md ∈ seen then seq
    else if 5000 < (seq ++ [modexp base i md]).length then seq ++ [modexp base i md]
    else genLoop base md fuel (modexp base i md :: seen) (seq ++ [modexp base i md]) (i + 1)

/-- `generateSequence()` from the source: clears the sequence, refuses a
zero modulus (leaving the sequence empty), and otherwise runs the
generation loop from exponent `i = 1` with empty `seen` set. -/
def generateSequence (base md : Nat) : List Nat :=
  if md = 0 then []
  else genLoop base md 5001 [] [] 1

/-- Loop invariant: every element the loop ever appends is a `modexp`
result, so if all entries of the accumulator are below the modulus, so
are all entries of the final sequence. -/
theorem genLoop_mem_lt (base md : Nat) (hmd : 1 ≤ md) :
    ∀ fuel seen seq i, (∀ x ∈ seq, x < md) →
      ∀ x ∈ genLoop base md fuel seen seq i, x < md := by
  intro fuel
  induction fuel with
  | zero => intro seen seq i hseq x hx; exact hseq x hx
  | succ n ih =>
    intro seen seq i hseq x hx
    rw [genLoop] at hx
    by_cases hmem : modexp base i md ∈ seen
    · rw [if_pos hmem] at hx; exact hseq x hx
    · rw [if_neg hmem] at hx
      have hseq2 : ∀ y ∈ seq ++ [modexp base i md], y < md := by
        intro y hy
        rcases List.mem_append.mp hy with h | h
        · exact hseq y h
        · rcases List.mem_singleton.mp h with rfl
          exact modexp_lt base i md hmd
      by_cases hcap : 5000 < (seq ++ [modexp base i md]).length
      · rw [if_pos hcap] at hx; exact hseq2 x hx
      · rw [if_neg hcap] at hx
        exact ih _ _ _ hseq2 x hx

/-- Loop invariant: provided the `seen` set contains every recorded
element, the recorded sequence stays duplicate-free (an element is only
appended after the `seen.find` test fails). -/
theorem genLoop_nodup (base md : Nat) :
    ∀ fuel seen seq i, (∀ x ∈ seq, x ∈ seen) → seq.Nodup →
      (genLoop base md fuel seen seq i).Nodup := by
  intro fuel
  induction fuel with
  | zero => intro seen seq i _ hnd; exact hnd
  | succ n ih =>
    intro seen seq i hsub hnd
    rw [genLoop]
    by_cases hmem : modexp base i md ∈ seen
    · rw [if_pos hmem]; exact hnd
    · rw [if_neg hmem]
      have hnotin : modexp base i md ∉ seq := fun h => hmem (hsub _ h)
      have hnd2 : (seq ++ [modexp base i md]).Nodup := by
        rw [List.nodup_append]
        exact ⟨hnd, List.nodup_singleton _, by
          intro a ha hb
          rcases List.mem_singleton.mp hb with rfl
          exact hnotin ha⟩
      by_cases hcap : 5000 < (seq ++ [modexp base i md]).length
      · rw [if_pos hcap]; exact hnd2
      · rw [if_neg hcap]
        refine ih _ _ _ ?_ hnd2
        intro x hx
        rcases List.mem_append.mp hx with h | h
        · exact List.mem_cons_of_mem _ (hsub x h)
        · rcases List.mem_singleton.mp h with rfl
          exact List.mem_cons_self _ _

/-- The fuel bound is not a behavioural restriction: starting from a
sequence of length at most 5000, any two fuels large enough to cover the
remaining capacity of the safety cap produce the same result — i.e. the
source's unbounded `while (true)` loop terminates within the modelled
iteration budget. -/
theorem genLoop_fuel_irrelevant (base md : Nat) :
    ∀ fuel1 fuel2 seen seq i, seq.length ≤ 5000 →
      5001 ≤ fuel1 + seq.length → 5001 ≤ fuel2 + seq.length →
      genLoop base md fuel1 seen seq i = genLoop base md fuel2 seen seq i := by
  intro fuel1
  induction fuel1 with
  | zero => intro fuel2 seen seq i hlen h1 _; omega
  | succ n ih =>
    intro fuel2 seen seq i hlen h1 h2
    obtain ⟨fuel2', rfl⟩ : ∃ k, fuel2 = k + 1 := ⟨fuel2 - 1, by omega⟩
    rw [genLoop, genLoop]
    by_cases hmem : modexp base i md ∈ seen
    · rw [if_pos hmem, if_pos hmem]
    · rw [if_neg hmem, if_neg hmem]
      by_cases hcap : 5000 < (seq ++ [modexp base i md]).length
      · rw [if_pos hcap, if_pos hcap]
      · rw [if_neg hcap, if_neg hcap]
        have hlen2 : (seq ++ [modexp base i md]).length = seq.length + 1 := by
          simp
        exact ih fuel2' _ _ _ (by omega) (by omega) (by omega)

/-- Complete run of the generation loop.  If the successive residues
`modexp base 1 md, modexp base 2 md, …` are pairwise distinct up to index
`d` and the residue at index `d + 1` closes the cycle back to index `1`,
then the loop started at exponent `i` (with the first `i - 1` residues
already recorded) returns exactly the first `min d 5001` residues: the
cycle-closure break fires at index `d + 1` when `d ≤ 5000`, and the
safety cap fires after the 5001st append otherwise. -/
theorem genLoop_run (base md d : Nat) (hd : 1 ≤ d)
    (hinj : ∀ i j, 1 ≤ i → i < j → j ≤ d → modexp base i md ≠ modexp base j md)
    (hrep : modexp base (d + 1) md = modexp base 1 md) :
    ∀ fuel i, 1 ≤ i → i + fuel = 5002 → i ≤ min d 5001 + 1 →
      genLoop base md fuel
          (((List.range' 1 (i - 1)).map (fun j => modexp base j md)).reverse)
          ((List.range' 1 (i - 1)).map (fun j => modexp base j md)) i
        = (List.range' 1 (min d 5001)).map (fun j => modexp base j md) := by
  intro fuel
  induction fuel with
  | zero =>
    intro i h1 hsum hile
    have hi : i = 5002 := by omega
    have hL : min d 5001 = 5001 := by omega
    subst hi
    rw [genLoop, hL]
  | succ n ih =>
    intro i h1 hsum hile
    by_cases hiL : i ≤ min d 5001
    · have hid : i ≤ d := le_trans hiL (min_le_left _ _)
      have hnotmem :
          modexp base i md ∉ ((List.range' 1 (i - 1)).map (fun j => modexp base j md)).reverse := by
        intro hmem
        rw [List.mem_reverse] at hmem
        obtain ⟨j, hj, hjF⟩ := List.mem_map.mp hmem
        obtain ⟨t, ht, rfl⟩ := List.mem_range'.mp hj
        exact hinj _ i (by omega) (by omega) hid hjF
      have happ :
          (List.range' 1 (i - 1)).map (fun j => modexp base j md) ++ [modexp base i md]
            = (List.range' 1 i).map (fun j => modexp base j md) := by
        have hcon : List.range' 1 ((i - 1) + 1) = List.range' 1 (i - 1) ++ [1 + (i - 1)] :=
          List.range'_1_concat 1 (i - 1)
        have h2 : (i - 1) + 1 = i := by omega
        have h3 : 1 + (i - 1) = i := by omega
        rw [h2, h3] at hcon
        rw [hcon, List.map_append, List.map_singleton]
      rw [genLoop, if_neg hnotmem, happ]
      have hlen : ((List.range' 1 i).map (fun j => modexp base j md)).length = i := by simp
      by_cases hcap : 5000 < ((List.range' 1 i).map (fun j => modexp base j md)).length
      · have hi5 : i = 5001 := by omega
        have hL : min d 5001 = 5001 := by omega
        rw [if_pos hcap, hi5, hL]
      · rw [if_neg hcap]
        have hrev :
            modexp base i md :: ((List.range' 1 (i - 1)).map (fun j => modexp base j md)).reverse
              = ((List.range' 1 i).map (fun j => modexp base j md)).reverse := by
          rw [← happ, List.reverse_append, List.reverse_singleton, List.singleton_append]
        rw [hrev]
        have hstep := ih (i + 1) (by omega) (by omega) (by omega)
        have h4 : i + 1 - 1 = i := by omega
        rw [h4] at hstep
        exact hstep
    · have hcapd : d ≤ 5000 := by omega
      have hL : min d 5001 = d := by omega
      have hi : i = d + 1 := by omega
      subst hi
      have hmem :
          modexp base (d + 1) md
            ∈ ((List.range' 1 (d + 1 - 1)).map (fun j => modexp base j md)).reverse := by
        rw [List.mem_reverse, hrep]
        refine List.mem_map.mpr ⟨1, ?_, rfl⟩
        exact List.mem_range'.mpr ⟨0, by omega, by omega⟩
      rw [genLoop, if_pos hmem, hL]
      have h5 : d + 1 - 1 = d := by omega
      rw [h5]

/-- Bridge to `ZMod`: for a positive modulus, `modexp` computes the
`ZMod.val` of the corresponding power in `ZMod md`. -/
theorem modexp_val (base e md : Nat) (h : 1 ≤ md) :
    modexp base e md = (((base : ZMod md)) ^ e).val := by
  rw [modexp_eq base e md h, ← Nat.cast_pow, ZMod.val_natCast]

/-- Bridge to `ZMod`: a power in `ZMod md` is the cast of the `modexp`
residue. -/
theorem zmod_pow_eq_cast_modexp (base e md : Nat) (h : 1 ≤ md) :
    ((base : ZMod md)) ^ e = ((modexp base e md : Nat) : ZMod md) := by
  rw [modexp_eq base e md h, ZMod.natCast_mod, Nat.cast_pow]

/-- A computed `modexp` residue different from `1` certifies that the
corresponding `ZMod` power is not the identity. -/
theorem zmod_pow_ne_one_of_modexp (base e md : Nat) (h2 : 2 ≤ md)
    (hne : modexp base e md ≠ 1) : ((base : ZMod md)) ^ e ≠ 1 := by
  haveI : NeZero md := ⟨by omega⟩
  haveI : Fact (1 < md) := ⟨by omega⟩
  rw [zmod_pow_eq_cast_modexp base e md (by omega)]
  intro hcontra
  apply hne
  have hval := congrArg ZMod.val hcontra
  rw [ZMod.val_natCast, Nat.mod_eq_of_lt (modexp_lt base e md (by omega)),
    ZMod.val_one] at hval
  exact hval

/-- Full characterization of `generateSequence` for coprime base and
positive modulus: the stored sequence is exactly the residues of
`base^1, …, base^L` where `L` is the multiplicative order of `base`
capped by the safety bound 5001. -/
theorem generateSequence_eq_of_coprime (base md : Nat) (hmd : 1 ≤ md)
    (hco : Nat.Coprime base md) :
    generateSequence base md
      = (List.range' 1 (min (orderOf ((base : ZMod md))) 5001)).map
          (fun j => modexp base j md) := by
  haveI : NeZero md := ⟨by omega⟩
  set u : (ZMod md)ˣ := ZMod.unitOfCoprime base hco with hu
  have hcoe : (u : ZMod md) = (base : ZMod md) := ZMod.coe_unitOfCoprime base hco
  have hordeq : orderOf ((base : ZMod md)) = orderOf u := by
    rw [← hcoe, orderOf_units]
  have hd1 : 1 ≤ orderOf u := orderOf_pos u
  have hinj : ∀ i j, 1 ≤ i → i < j → j ≤ orderOf u →
      modexp base i md ≠ modexp base j md := by
    intro i j h1 hij hjd heq
    rw [modexp_val base i md hmd, modexp_val base j md hmd] at heq
    have hcast : ((base : ZMod md)) ^ i = ((base : ZMod md)) ^ j :=
      ZMod.val_injective md heq
    have huij : u ^ i = u ^ j := by
      apply Units.ext
      rw [Units.val_pow_eq_pow_val, Units.val_pow_eq_pow_val, hcoe]
      exact hcast
    have hsplit : j = (j - i) + i := by omega
    rw [hsplit, pow_add] at huij
    have hone : u ^ (j - i) * u ^ i = 1 * u ^ i := by
      rw [one_mul]; exact huij.symm
    have hpow1 : u ^ (j - i) = 1 := mul_right_cancel hone
    have hdvd : orderOf u ∣ j - i := orderOf_dvd_of_pow_eq_one hpow1
    have hle : orderOf u ≤ j - i := Nat.le_of_dvd (by omega) hdvd
    omega
  have hrep : modexp base (orderOf u + 1) md = modexp base 1 md := by
    rw [modexp_val base (orderOf u + 1) md hmd, modexp_val base 1 md hmd]
    congr 1
    rw [← hcoe, ← Units.val_pow_eq_pow_val, ← Units.val_pow_eq_pow_val]
    congr 1
    rw [pow_succ, pow_orderOf_eq_one, one_mul, pow_one]
  rw [hordeq, generateSequence, if_neg (by omega : ¬ md = 0)]
  have hrun := genLoop_run base md (orderOf u) hd1 hinj hrep 5001 1 le_rfl
    (by omega) (by omega)
  simpa using hrun

/-- Length corollary of the characterization. -/
theorem generateSequence_length_of_coprime (base md : Nat) (hmd : 1 ≤ md)
    (hco : Nat.Coprime base md) :
    (generateSequence base md).length = min (orderOf ((base : ZMod md))) 5001 := by
  rw [generateSequence_eq_of_coprime base md hmd hco]
  simp

/-- For a coprime base the multiplicative order is bounded by the modulus
(the order divides the totient, which is at most the modulus). -/
theorem orderOf_cast_le_modulus (base md : Nat) (hmd : 1 ≤ md)
    (hco : Nat.Coprime base md) : orderOf ((base : ZMod md)) ≤ md := by
  haveI : NeZero md := ⟨by omega⟩
  set u : (ZMod md)ˣ := ZMod.unitOfCoprime base hco with hu
  have hcoe : (u : ZMod md) = (base : ZMod md) := ZMod.coe_unitOfCoprime base hco
  rw [← hcoe, orderOf_units]
  have hdvd : orderOf u ∣ Fintype.card (ZMod md)ˣ := orderOf_dvd_card
  have hcard : Fintype.card (ZMod md)ˣ = Nat.totient md :=
    ZMod.card_units_eq_totient md
  have hpos : 0 < Nat.totient md := Nat.totient_pos.mpr (by omega)
  have h1 : orderOf u ≤ Nat.totient md := Nat.le_of_dvd hpos (hcard ▸ hdvd)
  exact le_trans h1 (Nat.totient_le md)

/-- The multiplicative order of `2` modulo `5003` is `5002` (so `2` is a
primitive root modulo the prime `5003`); certified by `modexp`
computations on the embedded code. -/
theorem orderOf_two_mod_5003 : orderOf (((2 : Nat) : ZMod 5003)) = 5002 := by
  refine orderOf_eq_of_pow_and_pow_div_prime (by norm_num) ?_ ?_
  · rw [zmod_pow_eq_cast_modexp 2 5002 5003 (by norm_num)]
    have h1 : modexp 2 5002 5003 = 1 := by decide
    rw [h1, Nat.cast_one]
  · intro p hp hdvd
    have hcases : p = 2 ∨ p = 41 ∨ p = 61 := by
      have hfac : p ∣ 2 * (41 * 61) := by
        have : (5002 : ℕ) = 2 * (41 * 61) := by norm_num
        rwa [this] at hdvd
      rcases (Nat.Prime.dvd_mul hp).mp hfac with h | h
      · exact Or.inl ((Nat.prime_dvd_prime_iff_eq hp (by norm_num)).mp h)
      · rcases (Nat.Prime.dvd_mul hp).mp h with h' | h'
        · exact Or.inr (Or.inl ((Nat.prime_dvd_prime_iff_eq hp (by norm_num)).mp h'))
        · exact Or.inr (Or.inr ((Nat.prime_dvd_prime_iff_eq hp (by norm_num)).mp h'))
    rcases hcases with rfl | rfl | rfl
    · have hq : (5002 : ℕ) / 2 = 2501 := by norm_num
      rw [hq]
      exact zmod_pow_ne_one_of_modexp 2 2501 5003 (by norm_num) (by decide)
    · have hq : (5002 : ℕ) / 41 = 122 := by norm_num
      rw [hq]
      exact zmod_pow_ne_one_of_modexp 2 122 5003 (by norm_num) (by decide)
    · have hq : (5002 : ℕ) / 61 = 82 := by norm_num
      rw [hq]
      exact zmod_pow_ne_one_of_modexp 2 82 5003 (by norm_num) (by decide)

/-- The `Partials` struct from the source: four parallel arrays of
per-partial parameters. -/
structure Partials where
  freq : List ℚ
  omega : List ℚ
  amp : List ℚ
  phase0 : List ℚ

/-- The local `use` of `buildPartials`:
`(int)std::min<size_t>(seq.size(), (size_t)std::max(3, maxPartials))`.
`maxPartials` is a C `int`, modelled as `Int`. -/
def useCount (seq : List Nat) (maxPartials : Int) : Nat :=
  min seq.length (max 3 maxPartials).toNat

/-!
The source computes partial parameters and animation frames in IEEE
`double` arithmetic with the `<cmath>` transcendentals and `M_PI`.
IEEE floating point is not statable in this embedding; the numeric field
is modelled by `ℚ` and the transcendental ingredients (`M_PI`, `sin`,
`cos`, `tanh`) are abstract parameters (`piQ`, `sinQ`, `cosQ`, `tanhQ`),
so every theorem below holds uniformly for all interpretations of them.
-/

/-- `std::lround`, modelled as rounding to the nearest integer (the code
only compares or clamps the result, so the tie-breaking convention plays
no role in the stated claims). -/
def lround (q : ℚ) : Int := round q

/-- `buildPartials(seq, maxPartials)` from the source: an empty sequence
yields the default (empty) partial set; otherwise the leading `use`
sequence terms are mapped, in order, to per-partial parameters:
`hv = v % 17 + 1`, `tv = v % 29 + 3`, `f = 0.5 + 0.12*hv`,
`w = 0.6 + 0.07*tv`, `a = 1/(1 + k*0.8)`, `ph = (v % 360) * pi / 180`.
The C++ loop pushes the four values for `k = 0, …, use-1`; equivalently
each array is the image of `List.range use` (with `seq.getD k 0` for the
in-bounds access `seq[k]`). -/
def buildPartials (piQ : ℚ) (seq : List Nat) (maxPartials : Int) : Partials :=
  if seq.isEmpty then ⟨[], [], [], []⟩
  else
    { freq := (List.range (useCount seq maxPartials)).map fun (k : Nat) =>
        0.5 + 0.12 * ((seq.getD k 0 % 17 + 1 : Nat) : ℚ)
      omega := (List.range (useCount seq maxPartials)).map fun (k : Nat) =>
        0.6 + 0.07 * ((seq.getD k 0 % 29 + 3 : Nat) : ℚ)
      amp := (List.range (useCount seq maxPartials)).map fun (k : Nat) =>
        1 / (1 + (k : ℚ) * 0.8)
      phase0 := (List.range (useCount seq maxPartials)).map fun (k : Nat) =>
        ((seq.getD k 0 % 360 : Nat) : ℚ) * piQ / 180 }

/-- The 69-glyph brightness ramp `RAMP` of the source, written with hex
escapes (it is the ASCII ramp from space through `@`-like glyphs). -/
def RAMP : String :=
  "\x20\x2e\x27\x60\x5e\x2c\x3a\x3b\x49\x6c\x21\x69\x3e\x3c\x7e\x2b\x5f\x2d\x3f\x5d\x5b\x7d\x7b\x31\x29\x28\x7c\x5c\x2f\x74\x66\x6a\x72\x78\x6e\x75\x76\x63\x7a\x58\x59\x55\x4a\x43\x4c\x51\x30\x4f\x5a\x6d\x77\x71\x70\x64\x62\x6b\x68\x61\x6f\x2a\x23\x4d\x57\x26\x38\x25\x42\x40\x24"

/-- `RAMP_LEN` from the source. -/
def RAMP_LEN : Nat := 69

/-- `shade(v)`: map `v ∈ [-1,1]` to a ramp glyph by linear bucketing with
clamping; after the clamps the index is within bounds, so the `getD`
default is never reached. -/
def shade (v : ℚ) : Char :=
  let t : ℚ := (v + 1) * 0.5
  let idx : Int := Int.floor (t * ((RAMP_LEN : ℚ) - 1))
  let idx : Int := if idx < 0 then 0 else idx
  let idx : Int := if (RAMP_LEN : Int) ≤ idx then (RAMP_LEN : Int) - 1 else idx
  RAMP.toList.getD idx.toNat ' '

/-- The per-column harmonic sum of `drawOscilloscope`
(`ysum += P.amp[k] * sin(2π(P.freq[k]·xn) + P.omega[k]·t + P.phase0[k])`). -/
def oscSum (piQ : ℚ) (sinQ : ℚ → ℚ) (P : Partials) (xn t : ℚ) : ℚ :=
  (List.range P.freq.length).foldl
    (fun acc k => acc + P.amp.getD k 0 *
      sinQ (2 * piQ * (P.freq.getD k 0 * xn) + P.omega.getD k 0 * t + P.phase0.getD k 0))
    0

/-- `drawOscilloscope(P, W, H, t)`: the character grid (as `H` rows of
`W` cells, row `y`, column `x` as in the nested render loops) paired with
the status line the source appends after the grid. -/
def drawOscilloscope (piQ : ℚ) (sinQ tanhQ : ℚ → ℚ) (P : Partials) (W H : Nat)
    (t : ℚ) : List (List Char) × String :=
  let mid := H / 2
  ((List.range H).map fun (y : Nat) =>
    (List.range W).map fun (x : Nat) =>
      let xn : ℚ := (x : ℚ) / ((W : ℚ) - 1)
      let ysum : ℚ := tanhQ (oscSum piQ sinQ P xn t)
      let row : Int := (mid : Int) - lround (ysum * ((H : ℚ) * 0.4))
      if row = (y : Int) ∧ x % 2 = 0 then '#'
      else if y = mid then '-'
      else ' ',
   "Mode: Oscilloscope  |  size " ++ toString W ++ "x" ++ toString H
     ++ "  |  partials: " ++ toString P.freq.length ++ "  |  Press [4] in menu to stop.")

/-- The `X` accumulator of `drawLissajous`. -/
def lisSumX (piQ : ℚ) (sinQ : ℚ → ℚ) (P : Partials) (s t : ℚ) : ℚ :=
  (List.range P.freq.length).foldl
    (fun acc k => acc + P.amp.getD k 0 *
      sinQ (2 * piQ * (P.freq.getD k 0 * s) + 0.9 * P.omega.getD k 0 * t + P.phase0.getD k 0))
    0

/-- The `Y` accumulator of `drawLissajous`. -/
def lisSumY (piQ : ℚ) (sinQ : ℚ → ℚ) (P : Partials) (s t : ℚ) : ℚ :=
  (List.range P.freq.length).foldl
    (fun acc k => acc + P.amp.getD k 0 *
      sinQ (2 * piQ * (0.7 * P.freq.getD k 0 * s) + 1.1 * P.omega.getD k 0 * t
        + P.phase0.getD k 0 * 1.3))
    0

/-- `drawLissajous(P, W, H, t)`: a `W*H` cell buffer initialised to
spaces, `max(W,H)*3` parametric samples plotted into it (last write wins,
out-of-range samples dropped, exactly as the bounds test in the source),
then read back row by row; paired with the status line. -/
def drawLissajous (piQ : ℚ) (sinQ tanhQ : ℚ → ℚ) (P : Partials) (W H : Nat)
    (t : ℚ) : List (List Char) × String :=
  let points := max W H * 3
  let grid : List Char := (List.range points).foldl
    (fun g i =>
      let s : ℚ := (i : ℚ) / (points : ℚ)
      let X : ℚ := tanhQ (lisSumX piQ sinQ P s t)
      let Y : ℚ := tanhQ (lisSumY piQ sinQ P s t)
      let cx : Int := lround ((X * 0.45 + 0.5) * ((W : ℚ) - 1))
      let cy : Int := lround ((-Y * 0.45 + 0.5) * ((H : ℚ) - 2))
      if 0 ≤ cx ∧ cx < (W : Int) ∧ 0 ≤ cy ∧ cy < (H : Int) then
        g.set (cy.toNat * W + cx.toNat) '*'
      else g)
    (List.replicate (W * H) ' ')
  ((List.range H).map fun (y : Nat) => (List.range W).map fun (x : Nat) => grid.getD (y * W + x) ' ',
   "Mode: Lissajous  |  size " ++ toString W ++ "x" ++ toString H
     ++ "  |  partials: " ++ toString P.freq.length ++ "  |  Press [4] in menu to stop.")

/-- The per-cell harmonic sum of `drawPlasma`. -/
def plasmaSum (piQ : ℚ) (sinQ cosQ : ℚ → ℚ) (P : Partials) (xn yn t : ℚ) : ℚ :=
  (List.range P.freq.length).foldl
    (fun acc k => acc + P.amp.getD k 0 *
      (sinQ (2 * piQ * (P.freq.getD k 0 * xn) + 0.8 * P.omega.getD k 0 * t
          + P.phase0.getD k 0)
        + cosQ (2 * piQ * (0.6 * P.freq.getD k 0 * yn) + 1.1 * P.omega.getD k 0 * t
          + 0.5 * P.phase0.getD k 0)))
    0

/-- `drawPlasma(P, W, H, t)`: every cell shaded through the glyph ramp;
paired with the status line. -/
def drawPlasma (piQ : ℚ) (sinQ cosQ tanhQ : ℚ → ℚ) (P : Partials) (W H : Nat)
    (t : ℚ) : List (List Char) × String :=
  ((List.range H).map fun (y : Nat) =>
    let yn : ℚ := (y : ℚ) / ((H : ℚ) - 1)
    (List.range W).map fun (x : Nat) =>
      let xn : ℚ := (x : ℚ) / ((W : ℚ) - 1)
      shade (tanhQ (plasmaSum piQ sinQ cosQ P xn yn t * 0.8)),
   "Mode: Plasma  |  size " ++ toString W ++ "x" ++ toString H
     ++ "  |  partials: " ++ toString P.freq.length ++ "  |  Press [4] in menu to stop.")

/-- The generated sequence never holds duplicates, for any base and any
modulus (zero modulus gives the empty sequence). -/
theorem generateSequence_nodup_all (base md : Nat) :
    (generateSequence base md).Nodup := by
  rw [generateSequence]
  by_cases h : md = 0
  · rw [if_pos h]; exact List.nodup_nil
  · rw [if_neg h]
    exact genLoop_nodup base md 5001 [] [] 1 (fun _ hx => hx) List.nodup_nil

/-- Every stored element is a residue below the modulus. -/
theorem generateSequence_lt_all (base md : Nat) (h : 1 ≤ md) :
    ∀ x ∈ generateSequence base md, x < md := by
  rw [generateSequence, if_neg (by omega : ¬ md = 0)]
  exact genLoop_mem_lt base md h 5001 [] [] 1 (fun x hx => absurd hx (List.not_mem_nil x))

/-- Pigeonhole: a duplicate-free list of residues below `md` has at most
`md` entries, so the generated sequence is never longer than the
modulus. -/
theorem generateSequence_length_le (base md : Nat) (h : 1 ≤ md) :
    (generateSequence base md).length ≤ md := by
  have hnd := generateSequence_nodup_all base md
  have hlt := generateSequence_lt_all base md h
  have hcard : (generateSequence base md).toFinset.card = (generateSequence base md).length :=
    List.toFinset_card_of_nodup hnd
  have hsub : (generateSequence base md).toFinset ⊆ Finset.range md := by
    intro x hx
    exact Finset.mem_range.mpr (hlt x (List.mem_toFinset.mp hx))
  calc (generateSequence base md).length
      = (generateSequence base md).toFinset.card := hcard.symm
    _ ≤ (Finset.range md).card := Finset.card_le_card hsub
    _ = md := Finset.card_range md

/-- C2: for every base `b`, exponent `e` and modulus `m`, `modexp b e m`
equals `(b^e) mod m` whenever `m ≥ 1` (hence `modexp b 0 m = 1 % m` and
`modexp b e 1 = 0`), and `modexp` returns the sentinel `0` when `m = 0`. -/
theorem modexp_spec (b e m : Nat) :
    (1 ≤ m → modexp b e m = b ^ e % m) ∧ modexp b e 0 = 0 :=
  ⟨fun h => modexp_eq b e m h, modexp_zero_mod b e⟩

theorem modexp_spec_witness :
    1 ≤ 1000 ∧ modexp 2 10 1000 = 2 ^ 10 % 1000 ∧ modexp 2 10 0 = 0 :=
  ⟨by decide, (modexp_spec 2 10 1000).1 (by decide), (modexp_spec 2 10 0).2⟩

/-- C3: with modulus `0`, generation fails and the stored sequence is
empty — the guard returns before any `modexp` computation, this embedding
returning the cleared sequence directly. -/
theorem generateSequence_zero_modulus (base : Nat) : generateSequence base 0 = [] := rfl

/-- C4: with modulus `1` the sequence is exactly `[0]` for every base:
the first term is the residue `0` and the second term repeats it, ending
generation. -/
theorem generateSequence_modulus_one (base : Nat) : generateSequence base 1 = [0] := rfl

/-- C5: generation terminates for every base and positive modulus — any
fuel at least the modelled bound gives the same (hence stable) result, a
repeat always occurs within `modulus` steps (`length ≤ md`), and for a
modulus at most 5000 the safety cap (which would need 5001 stored terms)
can never be the cause of the stop. -/
theorem generateSequence_terminating (base md : Nat) (h : 1 ≤ md) :
    (∀ fuel, 5001 ≤ fuel → genLoop base md fuel [] [] 1 = generateSequence base md)
      ∧ (generateSequence base md).length ≤ md
      ∧ (md ≤ 5000 → (generateSequence base md).length < 5001) := by
  have hle := generateSequence_length_le base md h
  refine ⟨?_, hle, fun hcap => by omega⟩
  intro fuel hfuel
  rw [generateSequence, if_neg (by omega : ¬ md = 0)]
  exact genLoop_fuel_irrelevant base md fuel 5001 [] [] 1 (by simp) (by simp; omega)
    (by simp)

theorem generateSequence_terminating_witness :
    1 ≤ 9 ∧ genLoop 2 9 6000 [] [] 1 = generateSequence 2 9
      ∧ (generateSequence 2 9).length ≤ 9 :=
  ⟨by decide, (generateSequence_terminating 2 9 (by decide)).1 6000 (by decide),
    (generateSequence_terminating 2 9 (by decide)).2.1⟩

/-- C6: every element of the generated sequence lies in `[0, modulus)`
(being `Nat`, elements are nonnegative; the theorem states the strict
upper bound for the whole stored sequence). -/
theorem generateSequence_residue_range (base md : Nat) (h : 1 ≤ md) :
    (generateSequence base md).all (fun x => x < md) = true := by
  rw [List.all_eq_true]
  intro x hx
  exact decide_eq_true (generateSequence_lt_all base md h x hx)

theorem generateSequence_residue_range_witness :
    1 ≤ 9 ∧ (generateSequence 2 9).all (fun x => x < 9) = true :=
  ⟨by decide, generateSequence_residue_range 2 9 (by decide)⟩

/-- C10: for every base and positive modulus (coprime or not), the
elements of the generated sequence are pairwise distinct, because a
residue is appended only after the `seen` lookup fails. -/
theorem generateSequence_distinct (base md : Nat) (h : 1 ≤ md) :
    (generateSequence base md).Nodup :=
  generateSequence_nodup_all base md

theorem generateSequence_distinct_witness :
    1 ≤ 9 ∧ (generateSequence 2 9).Nodup :=
  ⟨by decide, generateSequence_distinct 2 9 (by decide)⟩

/-- C1, counterexample: at `base = 2`, `modulus = 5003` (prime, coprime
to the base) the multiplicative order of `2` is `5002`, but the safety
cap stops generation after 5001 stored residues, so the claimed equality
of sequence length and multiplicative order fails. -/
theorem generateSequence_order_counterexample :
    2 ≤ 5003 ∧ Nat.gcd 2 5003 = 1
      ∧ (generateSequence 2 5003).length ≠ orderOf (((2 : Nat) : ZMod 5003)) := by
  refine ⟨by norm_num, by decide, ?_⟩
  rw [generateSequence_length_of_coprime 2 5003 (by norm_num) (by decide),
    orderOf_two_mod_5003]
  decide

/-- C1, amended: for every base and modulus with `2 ≤ modulus ≤ 5000`
(so that the safety cap, which only fires after 5001 stored residues,
cannot bind) and `gcd(base, modulus) = 1`, the generated sequence length
equals the multiplicative order of the base and its elements are
pairwise distinct. -/
theorem generateSequence_order_of_coprime (base md : Nat) (h2 : 2 ≤ md)
    (hcap : md ≤ 5000) (hco : Nat.gcd base md = 1) :
    (generateSequence base md).length = orderOf (((base : Nat) : ZMod md))
      ∧ (generateSequence base md).Nodup := by
  have hco' : Nat.Coprime base md := hco
  have hord := orderOf_cast_le_modulus base md (by omega) hco'
  refine ⟨?_, generateSequence_nodup_all base md⟩
  rw [generateSequence_length_of_coprime base md (by omega) hco']
  omega

theorem generateSequence_order_of_coprime_witness :
    2 ≤ 9 ∧ 9 ≤ 5000 ∧ Nat.gcd 2 9 = 1
      ∧ (generateSequence 2 9).length = orderOf (((2 : Nat) : ZMod 9))
      ∧ (generateSequence 2 9).Nodup :=
  ⟨by decide, by decide, by decide,
    (generateSequence_order_of_coprime 2 9 (by decide) (by decide) (by decide)).1,
    (generateSequence_order_of_coprime 2 9 (by decide) (by decide) (by decide)).2⟩

/-- C7: the partial set has exactly
`min(len(sequence), max(3, max_count))` partials (all four parallel
arrays), built from the leading terms of the sequence in order; an empty
sequence yields the empty partial set (and indeed the same formula, as
the `min` is then `0`). -/
theorem buildPartials_size (piQ : ℚ) (seq : List Nat) (maxPartials : Int) :
    (buildPartials piQ seq maxPartials).freq.length
        = min seq.length (max 3 maxPartials).toNat
      ∧ (buildPartials piQ seq maxPartials).omega.length
        = min seq.length (max 3 maxPartials).toNat
      ∧ (buildPartials piQ seq maxPartials).amp.length
        = min seq.length (max 3 maxPartials).toNat
      ∧ (buildPartials piQ seq maxPartials).phase0.length
        = min seq.length (max 3 maxPartials).toNat := by
  by_cases h : seq.isEmpty
  · obtain rfl : seq = [] := List.isEmpty_iff.mp h
    simp [buildPartials, useCount]
  · simp [buildPartials, h, useCount]

/-- C8: in every partial set, the amplitude at position `k` is
`1 / (1 + k * 0.8)`, and amplitudes strictly decrease with position. -/
theorem buildPartials_amplitude (piQ : ℚ) (seq : List Nat) (maxPartials : Int) :
    (buildPartials piQ seq maxPartials).amp
        = (List.range (min seq.length (max 3 maxPartials).toNat)).map
            (fun (k : Nat) => 1 / (1 + (k : ℚ) * 0.8))
      ∧ (buildPartials piQ seq maxPartials).amp.Pairwise (fun a b => b < a) := by
  have hamp : (buildPartials piQ seq maxPartials).amp
      = (List.range (min seq.length (max 3 maxPartials).toNat)).map
          (fun (k : Nat) => 1 / (1 + (k : ℚ) * 0.8)) := by
    by_cases h : seq.isEmpty
    · obtain rfl : seq = [] := List.isEmpty_iff.mp h
      simp [buildPartials, useCount]
    · simp [buildPartials, h, useCount]
  refine ⟨hamp, ?_⟩
  rw [hamp]
  refine List.Pairwise.map _ ?_ (List.pairwise_lt_range _)
  intro i j hij
  have hij' : (i : ℚ) < j := by exact_mod_cast hij
  have h1 : (0 : ℚ) < 1 + (i : ℚ) * 0.8 := by positivity
  have h2 : 1 + (i : ℚ) * 0.8 < 1 + (j : ℚ) * 0.8 := by nlinarith
  exact one_div_lt_one_div_of_lt h1 h2

/-- Shape of a row-major grid built by the nested render loops: mapping
`List.length` over the rows yields `H` copies of `W`. -/
theorem grid_shape {α : Type} (H W : Nat) (rows : List (List α))
    (hlen : rows.length = H) (hrow : ∀ r ∈ rows, r.length = W) :
    rows.map List.length = List.replicate H W := by
  refine List.eq_replicate_iff.mpr ⟨by simp [hlen], ?_⟩
  intro b hb
  obtain ⟨r, hr, rfl⟩ := List.mem_map.mp hb
  exact hrow r hr

/-- C9: for any canvas with `W ≥ 40` and `H ≥ 16`, any time and any
partial set (including the empty one), each of the three renderers
produces exactly `H` rows of exactly `W` characters, plus exactly one
status line reporting the mode name, the canvas size and the partial
count. -/
theorem renderers_shape (piQ : ℚ) (sinQ cosQ tanhQ : ℚ → ℚ) (P : Partials)
    (W H : Nat) (t : ℚ) (hW : 40 ≤ W) (hH : 16 ≤ H) :
    ((drawOscilloscope piQ sinQ tanhQ P W H t).1.map List.length = List.replicate H W
      ∧ (drawOscilloscope piQ sinQ tanhQ P W H t).2
          = "Mode: Oscilloscope  |  size " ++ toString W ++ "x" ++ toString H
            ++ "  |  partials: " ++ toString P.freq.length
            ++ "  |  Press [4] in menu to stop.")
    ∧ ((drawLissajous piQ sinQ tanhQ P W H t).1.map List.length = List.replicate H W
      ∧ (drawLissajous piQ sinQ tanhQ P W H t).2
          = "Mode: Lissajous  |  size " ++ toString W ++ "x" ++ toString H
            ++ "  |  partials: " ++ toString P.freq.length
            ++ "  |  Press [4] in menu to stop.")
    ∧ ((drawPlasma piQ sinQ cosQ tanhQ P W H t).1.map List.length = List.replicate H W
      ∧ (drawPlasma piQ sinQ cosQ tanhQ P W H t).2
          = "Mode: Plasma  |  size " ++ toString W ++ "x" ++ toString H
            ++ "  |  partials: " ++ toString P.freq.length
            ++ "  |  Press [4] in menu to stop.") := by
  refine ⟨⟨?_, rfl⟩, ⟨?_, rfl⟩, ⟨?_, rfl⟩⟩ <;>
  · refine grid_shape H W _ (by simp [drawOscilloscope, drawLissajous, drawPlasma]) ?_
    intro r hr
    simp only [drawOscilloscope, drawLissajous, drawPlasma, List.mem_map,
      List.mem_range] at hr
    obtain ⟨y, _, rfl⟩ := hr
    simp

theorem renderers_shape_witness :
    40 ≤ 40 ∧ 16 ≤ 16
      ∧ (drawOscilloscope 0 (fun _ => 0) (fun _ => 0) ⟨[], [], [], []⟩ 40 16 0).1.map
          List.length = List.replicate 16 40
      ∧ (drawLissajous 0 (fun _ => 0) (fun _ => 0) ⟨[], [], [], []⟩ 40 16 0).1.map
          List.length = List.replicate 16 40
      ∧ (drawPlasma 0 (fun _ => 0) (fun _ => 0) (fun _ => 0) ⟨[], [], [], []⟩ 40 16 0).1.map
          List.length = List.replicate 16 40 :=
  ⟨by decide, by decide,
    (renderers_shape 0 (fun _ => 0) (fun _ => 0) (fun _ => 0) ⟨[], [], [], []⟩ 40 16 0
      (by decide) (by decide)).1.1,
    (renderers_shape 0 (fun _ => 0) (fun _ => 0) (fun _ => 0) ⟨[], [], [], []⟩ 40 16 0
      (by decide) (by decide)).2.1.1,
    (renderers_shape 0 (fun _ => 0) (fun _ => 0) (fun _ => 0) ⟨[], [], [], []⟩ 40 16 0
      (by decide) (by decide)).2.2.1⟩
